import Mathlib

/-!
Verification development for the ExpenseTracker repository
(`src/expense_tracker.py`).

The Python source is shallowly embedded: each method of the
`ExpenseTracker` class that carries logic is translated into an
executable Lean definition over explicit data (lists of rows, an
association list for the category-name table, rationals for the
float amounts).  Console printing, matplotlib charts and actual file
I/O are side effects outside the embedded state; the embedded
functions return the values the Python code computes.

Conventions used throughout:
* Python `str` is Lean `String`, manipulated through its `.data`
  character list.
* A pandas cell that may be NaN/missing is an `Option`.
* Python `float` amounts are modelled as `ℚ` (exact arithmetic on the
  decimal/exponent literals accepted by `float(...)` /
  `pd.to_numeric`; the special spellings `inf`/`nan`/underscores are
  out of the modelled domain).
* `datetime.datetime` at day granularity is the structure `DateT`;
  `datetime.strptime` for the fixed numeric formats of
  `parse_date_input` is modelled field by field, including the
  calendar validation performed by the `datetime` constructor.
-/

/-! ## Character helpers -/

/-- ASCII digit test, `'0'` to `'9'` (CPython's `[0-9]` in the strptime
field regexes and in float literals). -/
def isDigitC (c : Char) : Bool := 48 ≤ c.toNat && c.toNat ≤ 57

/-- Whitespace stripped by Python `str.strip()` (space, tab, newline,
vertical tab, form feed, carriage return). -/
def isSpaceC (c : Char) : Bool :=
  c.toNat == 32 || c.toNat == 9 || c.toNat == 10 ||
  c.toNat == 11 || c.toNat == 12 || c.toNat == 13

/-- Lowercase one character (ASCII range of Python `str.lower`). -/
def lowerC (c : Char) : Char :=
  if 65 ≤ c.toNat && c.toNat ≤ 90 then Char.ofNat (c.toNat + 32) else c

/-- Numeric value of a decimal digit character. -/
def digitVal (c : Char) : Nat := c.toNat - 48

/-- Decimal digit character for a value below 10. -/
def digitChar48 (n : Nat) : Char := Char.ofNat (48 + n)

/-! ## String helpers (`strip`, `lower`, split, digit runs) -/

/-- Drop trailing characters satisfying `p` (helper for `strip`). -/
def dropEndWhile (p : Char → Bool) (l : List Char) : List Char :=
  (l.reverse.dropWhile p).reverse

/-- Python `str.strip()` on a character list. -/
def stripChars (l : List Char) : List Char :=
  dropEndWhile isSpaceC (l.dropWhile isSpaceC)

/-- Python `str.strip()`. -/
def stripS (s : String) : String := String.mk (stripChars s.data)

/-- Python `str.lower()` (ASCII). -/
def lowerStr (s : String) : String := String.mk (s.data.map lowerC)

/-- Split a character list on a separator character; like Python
`re`-free splitting, every separator occurrence starts a new (possibly
empty) segment.  Returns the first segment and the later segments. -/
def splitAux (sep : Char) : List Char → List Char × List (List Char)
  | [] => ([], [])
  | c :: rest =>
    let r := splitAux sep rest
    if c = sep then ([], r.1 :: r.2) else (c :: r.1, r.2)

/-- All segments of `l` between occurrences of `sep`. -/
def splitOnC (sep : Char) (l : List Char) : List (List Char) :=
  (splitAux sep l).1 :: (splitAux sep l).2

/-- Value of a run of decimal digit characters (most significant
first). -/
def digitsToNat (l : List Char) : Nat :=
  l.foldl (fun a c => a * 10 + digitVal c) 0

/-- Decimal digit characters of `n`, most significant first, driven by
a fuel argument so that the definition is structural (kernel
reducible).  `natStr` below always supplies enough fuel. -/
def natDigitsAux : Nat → Nat → List Char
  | 0, _ => []
  | fuel + 1, n =>
    if n < 10 then [digitChar48 n]
    else natDigitsAux fuel (n / 10) ++ [digitChar48 (n % 10)]

/-- Decimal rendering of `n` (what CPython's `%d`-style formatting of a
nonnegative integer produces, without padding). -/
def natStr (n : Nat) : List Char := natDigitsAux (n + 1) n

/-- Two-digit zero-padded rendering (strftime `%d` / `%m`). -/
def pad2 (n : Nat) : List Char :=
  if n < 10 then '0' :: natStr n else natStr n

/-! ## Calendar dates (`datetime.datetime` at day granularity) -/

/-- A calendar date; the embedding of `datetime.datetime` values at the
day granularity used by the tracker. -/
structure DateT where
  year : Nat
  month : Nat
  day : Nat
deriving DecidableEq, Repr

/-- Gregorian leap-year test, as in `datetime`. -/
def isLeapYear (y : Nat) : Bool :=
  y % 4 == 0 && (y % 100 != 0 || y % 400 == 0)

/-- Days in a month, as validated by the `datetime` constructor. -/
def daysInMonth (y m : Nat) : Nat :=
  if m = 2 then (if isLeapYear y then 29 else 28)
  else if m = 4 ∨ m = 6 ∨ m = 9 ∨ m = 11 then 30
  else 31

/-- Validity check of the `datetime(year, month, day)` constructor. -/
def validDateB (y m d : Nat) : Bool :=
  1 ≤ y && y ≤ 9999 && 1 ≤ m && m ≤ 12 && 1 ≤ d && d ≤ daysInMonth y m

/-- The `datetime(year, month, day)` constructor: `some` on a valid
calendar date, `none` where Python raises `ValueError` (which
`parse_date_input` catches to fall through to the next format). -/
def mkDatetime (y m d : Nat) : Option DateT :=
  if validDateB y m d then some ⟨y, m, d⟩ else none

/-- `datetime` comparison `a <= b` (lexicographic on year, month,
day). -/
def dateLeB (a b : DateT) : Bool :=
  decide (a.year < b.year) ||
  (a.year == b.year &&
    (decide (a.month < b.month) ||
      (a.month == b.month && decide (a.day ≤ b.day))))

/-- `datetime` comparison `a < b`. -/
def dateLtB (a b : DateT) : Bool :=
  decide (a.year < b.year) ||
  (a.year == b.year &&
    (decide (a.month < b.month) ||
      (a.month == b.month && decide (a.day < b.day))))

/-! ## The date parser (`parse_date_input`)

`datetime.strptime` with the fifteen fixed formats of the source is
modelled by splitting on the format's (single, fixed) separator and
matching each numeric field.  Because every field pattern matches only
digit characters and each separator is a non-digit character, this is
equivalent to CPython's anchored, fully-consuming regex match:
`%d` matches one or two digits with value 1..31, `%m` one or two
digits with value 1..12, `%Y` exactly four digits; afterwards the
`datetime` constructor validates the calendar (raising, i.e. `none`,
on dates such as 31-02). -/

/-- Field `%d` of `strptime`: one or two digit characters, value 1..31
(regex `3[01]|[12]\d|0[1-9]|[1-9]`). -/
def matchDay (p : List Char) : Option Nat :=
  if p ≠ [] ∧ p.length ≤ 2 ∧ p.all isDigitC ∧
      1 ≤ digitsToNat p ∧ digitsToNat p ≤ 31 then
    some (digitsToNat p)
  else none

/-- Field `%m` of `strptime`: one or two digit characters, value 1..12
(regex `1[0-2]|0[1-9]|[1-9]`). -/
def matchMonth (p : List Char) : Option Nat :=
  if p ≠ [] ∧ p.length ≤ 2 ∧ p.all isDigitC ∧
      1 ≤ digitsToNat p ∧ digitsToNat p ≤ 12 then
    some (digitsToNat p)
  else none

/-- Field `%Y` of `strptime`: exactly four digit characters. -/
def matchYear (p : List Char) : Option Nat :=
  if p.length = 4 ∧ p.all isDigitC then some (digitsToNat p) else none

/-- The five field layouts appearing in `date_formats`. -/
inductive FmtShape where
  | dmy | mdy | ymd | my | ym
deriving DecidableEq, Repr

/-- One `strptime` attempt for a format with separator `sep` and field
layout `shape`.  For the month-only layouts the day defaults to 1
(this is both the `strptime` default and the explicit
`replace(day=1)` in the source). -/
def tryFormat (sep : Char) (shape : FmtShape) (l : List Char) : Option DateT :=
  match shape, splitOnC sep l with
  | .dmy, [p1, p2, p3] =>
    (matchDay p1).bind fun d =>
      (matchMonth p2).bind fun m =>
        (matchYear p3).bind fun y => mkDatetime y m d
  | .mdy, [p1, p2, p3] =>
    (matchMonth p1).bind fun m =>
      (matchDay p2).bind fun d =>
        (matchYear p3).bind fun y => mkDatetime y m d
  | .ymd, [p1, p2, p3] =>
    (matchYear p1).bind fun y =>
      (matchMonth p2).bind fun m =>
        (matchDay p3).bind fun d => mkDatetime y m d
  | .my, [p1, p2] =>
    (matchMonth p1).bind fun m =>
      (matchYear p2).bind fun y => mkDatetime y m 1
  | .ym, [p1, p2] =>
    (matchYear p1).bind fun y =>
      (matchMonth p2).bind fun m => mkDatetime y m 1
  | _, _ => none

/-- The `date_formats` list of the source, in order:
Day-Month-Year, Month-Day-Year, Year-Month-Day with separators
`-`, `/`, `.`, then Month-Year and Year-Month. -/
def allFormats : List (Char × FmtShape) :=
  [('-', .dmy), ('/', .dmy), ('.', .dmy),
   ('-', .mdy), ('/', .mdy), ('.', .mdy),
   ('-', .ymd), ('/', .ymd), ('.', .ymd),
   ('-', .my), ('/', .my), ('.', .my),
   ('-', .ym), ('/', .ym), ('.', .ym)]

/-- Try each format until the first success (the `for fmt in
date_formats` loop). -/
def tryAllFormats (l : List Char) : Option DateT :=
  allFormats.findSome? fun p => tryFormat p.1 p.2 l

/-- The character filter `re.sub(r'[^0-9/.-]', '', ...)`: keep only
digits, `/`, `.`, `-`. -/
def cleanChars (l : List Char) : List Char :=
  l.filter fun c => isDigitC c || c == '/' || c == '.' || c == '-'

/-- `ExpenseTracker.parse_date_input`, on textual (or missing) input.
`none` input is the `date_input is None` / NaN branch; empty or
whitespace-only strings return `None`; otherwise the cleaned string is
matched against the format list. -/
def parse_date_input (input : Option String) : Option DateT :=
  match input with
  | none => none
  | some s =>
    if s = "" ∨ stripChars s.data = [] then none
    else tryAllFormats (cleanChars s.data)

example : parse_date_input (some "03-04-2024") = some ⟨2024, 4, 3⟩ := by decide
example : parse_date_input (some "15/03/2024") = some ⟨2024, 3, 15⟩ := by decide
example : parse_date_input (some "12-13-2024") = some ⟨2024, 12, 13⟩ := by decide
example : parse_date_input (some "2024-03-15") = some ⟨2024, 3, 15⟩ := by decide
example : parse_date_input (some "04-2024") = some ⟨2024, 4, 1⟩ := by decide
example : parse_date_input (some "2024-04") = some ⟨2024, 4, 1⟩ := by decide
example : parse_date_input (some "31-02-2024") = none := by decide
example : parse_date_input (some "29-02-2024") = some ⟨2024, 2, 29⟩ := by decide
example : parse_date_input (some "29-02-2023") = none := by decide
example : parse_date_input (some "  ") = none := by decide
example : parse_date_input (some "x03-04-2024y") = some ⟨2024, 4, 3⟩ := by decide
example : parse_date_input none = none := by decide

/-! ## Python `float(...)` / `pd.to_numeric` on decimal literals

Optional sign, decimal digits with an optional fractional part, and an
optional decimal exponent, surrounded by optional whitespace; anything
else is `none` (Python raises `ValueError`, `to_numeric(errors =
'coerce')` yields NaN).  The special spellings `inf`/`nan` and digit
underscores are outside the modelled domain. -/

/-- Parse a Python float literal to an exact rational.  The value is
assembled with `mkRat` over integer arithmetic (sign × mantissa scaled
by the power of ten of the fractional and exponent parts), which is
the exact value of the decimal literal. -/
def pyFloat (s : String) : Option ℚ :=
  let l := stripChars s.data
  let signAndRest : ℤ × List Char :=
    match l with
    | '+' :: r => (1, r)
    | '-' :: r => (-1, r)
    | _ => (1, l)
  let sign := signAndRest.1
  let l1 := signAndRest.2
  let ip := l1.takeWhile isDigitC
  let l2 := l1.dropWhile isDigitC
  let fracAndRest : List Char × List Char :=
    match l2 with
    | '.' :: r => (r.takeWhile isDigitC, r.dropWhile isDigitC)
    | _ => ([], l2)
  let fp := fracAndRest.1
  let l3 := fracAndRest.2
  if ip = [] ∧ fp = [] then none
  else
    let num : ℤ :=
      sign * Int.ofNat (digitsToNat ip * Nat.pow 10 fp.length + digitsToNat fp)
    let den : Nat := Nat.pow 10 fp.length
    match l3 with
    | [] => some (mkRat num den)
    | e :: r =>
      if e = 'e' ∨ e = 'E' then
        let esignAndRest : Bool × List Char :=
          match r with
          | '+' :: t => (true, t)
          | '-' :: t => (false, t)
          | _ => (true, r)
        let ed := esignAndRest.2.takeWhile isDigitC
        let rest := esignAndRest.2.dropWhile isDigitC
        if ed = [] ∨ rest ≠ [] then none
        else if esignAndRest.1 then
          some (mkRat (num * Int.ofNat (Nat.pow 10 (digitsToNat ed))) den)
        else
          some (mkRat num (den * Nat.pow 10 (digitsToNat ed)))
      else none

example : pyFloat "45.50" = some (91 / 2 : ℚ) := by with_unfolding_all decide
example : pyFloat " -5 " = some (-5 : ℚ) := by with_unfolding_all decide
example : pyFloat "abc" = none := by with_unfolding_all decide
example : pyFloat "1e2" = some (100 : ℚ) := by with_unfolding_all decide
example : pyFloat "2.5E-1" = some (1 / 4 : ℚ) := by with_unfolding_all decide
example : pyFloat "" = none := by with_unfolding_all decide
example : pyFloat "." = none := by with_unfolding_all decide
example : pyFloat "3." = some (3 : ℚ) := by with_unfolding_all decide
example : pyFloat ".5" = some (1 / 2 : ℚ) := by with_unfolding_all decide

/-! ## Rows and the tracker state -/

/-- One raw CSV row as read by `pd.read_csv`: every cell is text, a
missing cell is `none` (NaN). -/
structure RawRow where
  date : Option String
  category : Option String
  amount : Option String
  descr : Option String
deriving DecidableEq, Repr

/-- One row of the in-memory `expense_data` frame after the coercions
of `load_expense_data` (or built by `add_new_expense`): `Date` is a
parsed date or NaT, `Amount` a number or NaN. -/
structure Row where
  date : Option DateT
  category : Option String
  amount : Option ℚ
  descr : Option String
deriving DecidableEq, Repr

/-- The mutable state of an `ExpenseTracker` instance: the record
frame and the category canonical-name table (a Python dict in
insertion order, embedded as an association list keyed by the
lowercase-trimmed category). -/
structure TrackerState where
  expense_data : List Row
  category_name_mapping : List (String × String)
deriving DecidableEq, Repr

/-- First-match association-list lookup (Python `dict.get` /
`in`; the dicts built by the tracker have unique keys). -/
def lookupM {α : Type} : List (String × α) → String → Option α
  | [], _ => none
  | (k, v) :: rest, key => if k = key then some v else lookupM rest key

/-! ## `load_expense_data`

The pipeline of the source on a successfully read CSV:
`to_numeric(errors='coerce')` on `Amount`, `parse_date_input` on
`Date`, `dropna(subset=['Date','Amount'])`, then keep `Amount > 0`.
An unreadable file yields the empty frame; the embedding takes the
already-read rows as input, so that branch is the empty input. -/

/-- Column coercions applied to one raw row. -/
def coerceRow (r : RawRow) : Row :=
  { date := parse_date_input r.date
    category := r.category
    amount := r.amount.bind pyFloat
    descr := r.descr }

/-- Amount-positivity mask `expense_dataframe['Amount'] > 0`
(NaN compares false). -/
def amountPos (r : Row) : Bool :=
  match r.amount with
  | some a => decide (0 < a)
  | none => false

/-- `ExpenseTracker.load_expense_data` on the raw rows of the CSV. -/
def load_expense_data (raws : List RawRow) : List Row :=
  (((raws.map coerceRow).filter
      fun r => r.date.isSome && r.amount.isSome).filter amountPos)

/-! ## The category normalizer -/

/-- Increment the count of spelling `o` in the inner counter dict
(`name_variations[clean_name][original_name] += 1`); insertion order
of a Python dict keeps first-seen spelling order. -/
def bumpInner : List (String × Nat) → String → List (String × Nat)
  | [], o => [(o, 1)]
  | (k, n) :: rest, o =>
    if k = o then (k, n + 1) :: rest else (k, n) :: bumpInner rest o

/-- Record one category occurrence in the outer dict keyed by
`lowercase(strip(...))`. -/
def bumpOuter : List (String × List (String × Nat)) → String → String →
    List (String × List (String × Nat))
  | [], k, o => [(k, [(o, 1)])]
  | (k', v) :: rest, k, o =>
    if k' = k then (k', bumpInner v o) :: rest
    else (k', v) :: bumpOuter rest k o

/-- The `name_variations` table: for every category cell that is not
NaN, count spellings of `strip(value)` grouped under
`lower(strip(value))`, in source order. -/
def buildVariations (cells : List (Option String)) :
    List (String × List (String × Nat)) :=
  cells.foldl
    (fun acc c =>
      match c with
      | none => acc
      | some cat => bumpOuter acc (lowerStr (stripS cat)) (stripS cat))
    []

/-- Python `max(items, key=lambda x: x[1])` over `best :: rest`: keeps
the first element attaining the maximal count (updates only on a
strictly larger key). -/
def pickMax : (String × Nat) → List (String × Nat) → String × Nat
  | best, [] => best
  | best, (o, n) :: rest =>
    if best.2 < n then pickMax (o, n) rest else pickMax best rest

/-- Most common spelling of one variation group (the groups built by
`buildVariations` are never empty). -/
def pickMaxList : List (String × Nat) → String
  | [] => ""
  | x :: xs => (pickMax x xs).1

/-- `ExpenseTracker.build_category_name_mapping` from the `Category`
cells of the loaded frame. -/
def build_category_name_mapping (cells : List (Option String)) :
    List (String × String) :=
  (buildVariations cells).map fun p => (p.1, pickMaxList p.2)

/-- `ExpenseTracker.normalize_category_name` on a definitely-present
category string: look up the lowercase of the stripped input, fall
back to the stripped input itself. -/
def nameNorm (m : List (String × String)) (s : String) : String :=
  match lookupM m (lowerStr (stripS s)) with
  | some canonical => canonical
  | none => stripS s

/-- `ExpenseTracker.normalize_category_name`: NaN (missing) input is
returned unchanged. -/
def normalize_category_name (m : List (String × String)) :
    Option String → Option String
  | none => none
  | some s => some (nameNorm m s)

/-- `ExpenseTracker.normalize_all_categories` applied to the frame. -/
def normalize_all_categories (m : List (String × String))
    (rows : List Row) : List Row :=
  rows.map fun r => { r with category := normalize_category_name m r.category }

/-- The mapping update of `add_new_expense` (lines registering
`category_key` when it is not yet in `category_name_mapping`). -/
def registerCategory (m : List (String × String)) (cat : String) :
    List (String × String) :=
  let key := lowerStr (stripS cat)
  if (lookupM m key).isNone then m ++ [(key, nameNorm m cat)] else m

example :
    build_category_name_mapping
      [some "groceries", some "Groceries", some "Groceries", some "Groceries"] =
    [("groceries", "Groceries")] := by decide
example :
    build_category_name_mapping [some "Foo", some "foo"] =
    [("foo", "Foo")] := by decide
example :
    build_category_name_mapping [some "foo", some "Foo"] =
    [("foo", "foo")] := by decide

/-! ## `analyze_categories`

`groupby('Category')` drops NaN keys and sorts the distinct keys
ascending (Python string `<`); per key the amounts are summed
(`skipna`) and the rows counted; the percentage column is
`(category_totals / overall_spending * 100).round(2)` with
`overall_spending = category_totals.sum()`; finally
`sort_values('Total Amount', ascending=False)`.  pandas implements the
descending sort in `pandas.core.sorting.nargsort` by reversing the
values and the index array, taking the ascending argsort, and
reversing the resulting indexer; with a stable underlying argsort
(numpy's quicksort is insertion sort on the small arrays arising
here) the two reversals cancel on tied elements, giving a *stable
descending* sort: rows with equal totals keep the ascending
(alphabetical) key order of the `groupby` index.  The embedding is
therefore a stable descending insertion sort. -/

/-- Banker's rounding of a rational to an integer (numpy half-to-even,
the semantics of `.round` on exact decimal values). -/
def roundHalfEven (q : ℚ) : ℤ :=
  let f := Rat.floor q
  let r := q - (mkRat f 1)
  if r < mkRat 1 2 then f
  else if mkRat 1 2 < r then f + 1
  else if f % 2 = 0 then f else f + 1

/-- `.round(2)`: round to two decimal places, half to even. -/
def round2 (q : ℚ) : ℚ := mkRat (roundHalfEven (q * 100)) 100

/-- Ascending insertion sort on strings by the Python `<` on `str`
(code-point lexicographic), matching the key order produced by
`groupby(..., sort=True)`. -/
def insStr (x : String) : List String → List String
  | [] => [x]
  | y :: ys => if x < y then x :: y :: ys else y :: insStr x ys

/-- Sort a list of strings ascending. -/
def sortStr (l : List String) : List String := l.foldr insStr []

/-- The category cells present in the frame (NaN keys are dropped by
`groupby`). -/
def catCells (rows : List Row) : List String := rows.filterMap Row.category

/-- Distinct group keys of `groupby('Category')`, ascending. -/
def sortedCats (rows : List Row) : List String :=
  sortStr (catCells rows).dedup

/-- Group sum of `Amount` for one category key (pandas `sum` skips
NaN). -/
def catSum (rows : List Row) (c : String) : ℚ :=
  (rows.filter fun r => r.category == some c).foldl
    (fun acc r => acc + r.amount.getD 0) 0

/-- Group size for one category key. -/
def catCount (rows : List Row) (c : String) : Nat :=
  (rows.filter fun r => r.category == some c).length

/-- `overall_spending = category_totals.sum()` (the total over rows
with a non-NaN category). -/
def grandTotal (rows : List Row) : ℚ :=
  (sortedCats rows).foldl (fun acc c => acc + catSum rows c) 0

/-- One row of the category report frame. -/
structure CatRow where
  category : String
  total : ℚ
  count : Nat
  percentage : ℚ
deriving DecidableEq, Repr

/-- Stable descending insertion by total: an element is inserted
before the first element whose total is `≤` its own, so elements with
equal totals keep their relative order. -/
def insTot (x : CatRow) : List CatRow → List CatRow
  | [] => [x]
  | y :: ys => if y.total ≤ x.total then x :: y :: ys else y :: insTot x ys

/-- Stable descending sort of the report rows by total (the net effect
of pandas' `nargsort` with `ascending=False`, see the section
comment). -/
def sortTot (l : List CatRow) : List CatRow := l.foldr insTot []

/-- `ExpenseTracker.analyze_categories`: the category report returned
by the method (the empty frame on an empty ledger). -/
def analyze_categories (rows : List Row) : List CatRow :=
  if rows.isEmpty then []
  else
    let overall := grandTotal rows
    let groups := (sortedCats rows).map fun c =>
      { category := c
        total := catSum rows c
        count := catCount rows c
        percentage := round2 (catSum rows c / overall * 100) : CatRow }
    sortTot groups

example :
    analyze_categories
      [⟨some ⟨2024, 3, 1⟩, some "Food", some 10, some ""⟩,
       ⟨some ⟨2024, 3, 2⟩, some "Rent", some 30, some ""⟩] =
    [⟨"Rent", 30, 1, mkRat 75 1⟩, ⟨"Food", 10, 1, mkRat 25 1⟩] := by
  with_unfolding_all decide

example :
    analyze_categories
      [⟨some ⟨2024, 3, 1⟩, some "A", some 10, some ""⟩,
       ⟨some ⟨2024, 3, 2⟩, some "B", some 10, some ""⟩] =
    [⟨"A", 10, 1, mkRat 50 1⟩, ⟨"B", 10, 1, mkRat 50 1⟩] := by
  with_unfolding_all decide

/-! ## `filter_expenses` -/

/-- A pandas DataFrame result, abstracted to its column list and rows:
`pd.DataFrame()` (the error return) is `⟨[], []⟩`, while a filtered
copy of the ledger keeps the four standard columns. -/
structure DF where
  cols : List String
  rows : List Row
deriving DecidableEq, Repr

/-- The tracker's column header. -/
def stdCols : List String := ["Date", "Category", "Amount", "Description"]

/-- `df.empty`: a frame with no elements (both the bare `pd.DataFrame()`
and a zero-row filtered copy are empty). -/
def dfEmpty (df : DF) : Bool := df.rows.isEmpty

/-- Python truthiness of an optional-string argument (`None` and `""`
are falsy). -/
def truthyS : Option String → Bool
  | none => false
  | some s => !(s == "")

/-- The month equality test the source *intends* on its line
`expense_copy['Date'].dt.to_period('M') == month_period` (NaT compares
false).  The program never reaches this comparison — see
`filter_expenses` below — so this definition only serves to state what
the dead month branch would have computed. -/
def monthMatch (md : DateT) (r : Row) : Bool :=
  match r.date with
  | some d => d.year == md.year && d.month == md.month
  | none => false

/-- Row mask `Date >= parsed_start` (NaT compares false). -/
def dateGe (s : DateT) (r : Row) : Bool :=
  match r.date with
  | some d => dateLeB s d
  | none => false

/-- Row mask `Date <= parsed_end` (NaT compares false). -/
def dateLe (e : DateT) (r : Row) : Bool :=
  match r.date with
  | some d => dateLeB d e
  | none => false

/-- The two optional range filters applied in sequence. -/
def applyRange (rows : List Row) (ps pe : Option DateT) : List Row :=
  let rows1 :=
    match ps with
    | some s => rows.filter (dateGe s)
    | none => rows
  match pe with
  | some e => rows1.filter (dateLe e)
  | none => rows1

/-- `ExpenseTracker.filter_expenses`.  A truthy `target_month` is
handled first and exclusively.  In that branch an unparsable month
prints a message and returns the bare `pd.DataFrame()`; a *parsable*
month also returns the bare `pd.DataFrame()`, because
`month_date.to_period('M')` is called on the `datetime.datetime` that
`parse_date_input` produced — stdlib `datetime` has no `to_period`
(that is `pandas.Timestamp` API), the `AttributeError` is swallowed by
the blanket `except Exception`, and the error path returns
`pd.DataFrame()`.  The intended `monthMatch` filter is dead code.  In
the range branch, unparsable bounds print a message and return the
bare `pd.DataFrame()`; otherwise a filtered copy (with the standard
columns) is returned. -/
def filter_expenses (rows : List Row)
    (start_date end_date target_month : Option String) : DF :=
  if truthyS target_month then
    match parse_date_input target_month with
    | none => ⟨[], []⟩
    | some _ => ⟨[], []⟩
  else if truthyS start_date || truthyS end_date then
    let ps := if truthyS start_date then parse_date_input start_date else none
    let pe := if truthyS end_date then parse_date_input end_date else none
    if truthyS start_date && ps.isNone then ⟨[], []⟩
    else if truthyS end_date && pe.isNone then ⟨[], []⟩
    else ⟨stdCols, applyRange rows ps pe⟩
  else ⟨stdCols, rows⟩

/-- `filter_expenses` as a state transformer: the method reads
`self.expense_data` through a copy and writes nothing back. -/
def filter_expensesS (st : TrackerState)
    (start_date end_date target_month : Option String) :
    DF × TrackerState :=
  (filter_expenses st.expense_data start_date end_date target_month, st)

/-! ## `add_new_expense` and the canonical write format -/

/-- The observable outcome of one `add_new_expense` interaction: which
diagnostic branch the procedure takes (each corresponds to a distinct
printed message in the source) or a successful append. -/
inductive AddResult where
  | invalidDate
  | cancelledFuture
  | nonPositiveAmount
  | invalidNumber
  | success
deriving DecidableEq, Repr

/-- `ExpenseTracker.add_new_expense`, with the console reads made
explicit: the four raw input strings, the current time (`now`, at day
granularity) and the y/n answer to the future-date confirmation.
Category and description are stripped at the `input(...)` call site;
the date is validated first, then the amount, and only then are the
mapping and the frame extended. -/
def add_new_expense (st : TrackerState) (now : DateT)
    (raw_date raw_category raw_amount raw_description : String)
    (confirmFuture : Bool) : AddResult × TrackerState :=
  let input_category := stripS raw_category
  let input_description := stripS raw_description
  match parse_date_input (some raw_date) with
  | none => (.invalidDate, st)
  | some expense_date =>
    if dateLtB now expense_date && !confirmFuture then (.cancelledFuture, st)
    else
      match pyFloat raw_amount with
      | none => (.invalidNumber, st)
      | some amt =>
        if amt ≤ 0 then (.nonPositiveAmount, st)
        else
          let normalized := nameNorm st.category_name_mapping input_category
          let mapping := registerCategory st.category_name_mapping input_category
          let row : Row :=
            ⟨some expense_date, some normalized, some amt, some input_description⟩
          (.success, ⟨st.expense_data ++ [row], mapping⟩)

/-- The date rendering of `save_expense_data`:
`date.strftime('%d-%m-%Y')`, with day and month zero-padded to two
digits and the year printed as a plain decimal number (glibc `%Y`
does not zero-pad, so years below 1000 render with fewer than four
digits). -/
def strftime_ddmmyyyy (d : DateT) : String :=
  String.mk (pad2 d.day ++ '-' :: pad2 d.month ++ '-' :: natStr d.year)

/-- The `Date` column as serialized by `save_expense_data`
(non-datetime cells, i.e. NaT, pass through the `isinstance` guard
unchanged and are not modelled here; amounts and the CSV writing
itself carry no logic). -/
def save_date_column (rows : List Row) : List (Option String) :=
  rows.map fun r => r.date.map strftime_ddmmyyyy

example : strftime_ddmmyyyy ⟨2024, 3, 15⟩ = "15-03-2024" := by decide
example : strftime_ddmmyyyy ⟨1, 1, 1⟩ = "01-01-1" := by decide
example :
    parse_date_input (some (strftime_ddmmyyyy ⟨2024, 3, 15⟩)) =
    some ⟨2024, 3, 15⟩ := by decide
example : parse_date_input (some (strftime_ddmmyyyy ⟨1, 1, 1⟩)) = none := by
  decide

/-! ## Lemmas about `strip` -/

theorem dropWhile_dropWhile (p : Char → Bool) (l : List Char) :
    List.dropWhile p (List.dropWhile p l) = List.dropWhile p l := by
  induction l with
  | nil => rfl
  | cons c rest ih =>
    by_cases h : p c
    · simp [List.dropWhile_cons, h, ih]
    · simp [List.dropWhile_cons, h]

theorem dropWhile_all (p : Char → Bool) (l : List Char)
    (h : List.dropWhile p l = []) : ∀ c ∈ l, p c := by
  exact List.dropWhile_eq_nil_iff.mp h

theorem length_dropWhile_le' (p : Char → Bool) (l : List Char) :
    (List.dropWhile p l).length ≤ l.length := by
  conv_rhs => rw [← List.takeWhile_append_dropWhile (p := p) (l := l)]
  rw [List.length_append]
  omega

theorem dropWhile_append' (p : Char → Bool) (a b : List Char) :
    List.dropWhile p (a ++ b) =
      if List.dropWhile p a = [] then List.dropWhile p b
      else List.dropWhile p a ++ b := by
  induction a with
  | nil => simp
  | cons x xs ih =>
    by_cases h : p x
    · simpa [List.dropWhile_cons, h] using ih
    · simp [List.dropWhile_cons, h]

theorem dropEndWhile_head (p : Char → Bool) (c : Char) (l : List Char)
    (hc : p c = false) : ∃ t, dropEndWhile p (c :: l) = c :: t := by
  unfold dropEndWhile
  have hrev : (c :: l).reverse = l.reverse ++ [c] := by simp
  rw [hrev, dropWhile_append' p l.reverse [c]]
  by_cases h : List.dropWhile p l.reverse = []
  · refine ⟨[], ?_⟩
    simp [h, List.dropWhile_cons, hc]
  · refine ⟨(List.dropWhile p l.reverse).reverse, ?_⟩
    simp [h]

theorem stripChars_head (c : Char) (l : List Char) (hc : isSpaceC c = false) :
    ∃ t, stripChars (c :: l) = c :: t := by
  unfold stripChars
  rw [List.dropWhile_cons]
  simp only [hc]
  simpa using dropEndWhile_head isSpaceC c l hc

theorem stripChars_ne_nil (c : Char) (l : List Char)
    (hc : isSpaceC c = false) : stripChars (c :: l) ≠ [] := by
  rcases stripChars_head c l hc with ⟨t, ht⟩
  simp [ht]

theorem stripChars_idem (l : List Char) :
    stripChars (stripChars l) = stripChars l := by
  unfold stripChars
  have hm : List.dropWhile isSpaceC (List.dropWhile isSpaceC l) =
      List.dropWhile isSpaceC l := dropWhile_dropWhile isSpaceC l
  have h1 : List.dropWhile isSpaceC
      (dropEndWhile isSpaceC (List.dropWhile isSpaceC l)) =
      dropEndWhile isSpaceC (List.dropWhile isSpaceC l) := by
    rcases hcase : List.dropWhile isSpaceC l with _ | ⟨c, rest⟩
    · simp [dropEndWhile]
    · have hc : isSpaceC c = false := by
        cases hcc : isSpaceC c with
        | false => rfl
        | true =>
          exfalso
          rw [hcase, List.dropWhile_cons, hcc] at hm
          have hle := length_dropWhile_le' isSpaceC rest
          have hlen := congrArg List.length hm
          simp at hlen
          omega
      rcases dropEndWhile_head isSpaceC c rest hc with ⟨t, ht⟩
      rw [ht, List.dropWhile_cons]
      simp [hc]
  rw [h1]
  -- it remains to drop trailing spaces twice
  unfold dropEndWhile
  rw [List.reverse_reverse, dropWhile_dropWhile]

theorem stripS_idem (s : String) : stripS (stripS s) = stripS s := by
  unfold stripS
  exact congrArg String.mk (stripChars_idem s.data)

theorem stripChars_all_space (l : List Char) (h : stripChars l = []) :
    ∀ c ∈ l, isSpaceC c = true := by
  unfold stripChars dropEndWhile at h
  have h2 : List.dropWhile isSpaceC (List.dropWhile isSpaceC l).reverse = [] := by
    have := congrArg List.reverse h
    simpa using this
  have h3 : ∀ c ∈ (List.dropWhile isSpaceC l).reverse, isSpaceC c :=
    dropWhile_all _ _ h2
  intro c hc
  have hsplit := List.takeWhile_append_dropWhile (p := isSpaceC) (l := l)
  rw [← hsplit] at hc
  rcases List.mem_append.mp hc with h4 | h4
  · exact List.mem_takeWhile_imp h4
  · exact h3 c (by simpa using h4)

/-! ## Lemmas about `cleanChars` and the format loop -/

theorem clean_drop_space (c : Char) (h : isSpaceC c = true) :
    (isDigitC c || c == '/' || c == '.' || c == '-') = false := by
  have hn : c.toNat = 32 ∨ c.toNat = 9 ∨ c.toNat = 10 ∨ c.toNat = 11 ∨
      c.toNat = 12 ∨ c.toNat = 13 := by
    unfold isSpaceC at h
    simp only [Bool.or_eq_true, beq_iff_eq] at h
    tauto
  have hd : isDigitC c = false := by
    unfold isDigitC
    rcases hn with h' | h' | h' | h' | h' | h' <;> simp [h']
  have h2 : (c == '/') = false := by
    cases hb : c == '/' with
    | false => rfl
    | true =>
      exfalso
      have he : c = '/' := eq_of_beq hb
      subst he
      exact absurd hn (by decide)
  have h3 : (c == '.') = false := by
    cases hb : c == '.' with
    | false => rfl
    | true =>
      exfalso
      have he : c = '.' := eq_of_beq hb
      subst he
      exact absurd hn (by decide)
  have h4 : (c == '-') = false := by
    cases hb : c == '-' with
    | false => rfl
    | true =>
      exfalso
      have he : c = '-' := eq_of_beq hb
      subst he
      exact absurd hn (by decide)
  simp [hd, h2, h3, h4]

theorem cleanChars_nil_of_space (l : List Char)
    (h : ∀ c ∈ l, isSpaceC c = true) : cleanChars l = [] := by
  unfold cleanChars
  induction l with
  | nil => rfl
  | cons c rest ih =>
    rw [List.filter_cons]
    have := clean_drop_space c (h c (by simp))
    simp only [this]
    exact ih fun x hx => h x (by simp [hx])

/-- The guard-and-clean behaviour of `parse_date_input` on every string
input: the result is exactly the format loop applied to the cleaned
character list (blank inputs return `None`, and their cleaned list
matches no format either). -/
theorem parse_eq_clean (s : String) :
    parse_date_input (some s) = tryAllFormats (cleanChars s.data) := by
  rw [show parse_date_input (some s) =
      if s = "" ∨ stripChars s.data = [] then none
      else tryAllFormats (cleanChars s.data) from rfl]
  by_cases h : s = "" ∨ stripChars s.data = []
  · rw [if_pos h]
    have hall : ∀ c ∈ s.data, isSpaceC c = true := by
      rcases h with h | h
      · subst h
        intro c hc
        rw [show ("" : String).data = [] from rfl] at hc
        exact absurd hc (List.not_mem_nil c)
      · exact stripChars_all_space _ h
    rw [cleanChars_nil_of_space _ hall]
    rfl
  · rw [if_neg h]

/-- The first entry of the format list wins: if the Day-Month-Year
dash format matches, the loop returns its result. -/
theorem tryAll_first_dmy (l : List Char) (d : DateT)
    (h : tryFormat '-' .dmy l = some d) : tryAllFormats l = some d := by
  unfold tryAllFormats allFormats
  simp [List.findSome?_cons, h]

/-! ## Lemmas about decimal digit rendering -/

theorem digitVal_digitChar48 (n : Nat) (h : n < 10) :
    digitVal (digitChar48 n) = n := by
  interval_cases n <;> decide

theorem isDigitC_digitChar48 (n : Nat) (h : n < 10) :
    isDigitC (digitChar48 n) = true := by
  interval_cases n <;> decide

theorem digitsToNat_append_one (l : List Char) (c : Char) :
    digitsToNat (l ++ [c]) = digitsToNat l * 10 + digitVal c := by
  unfold digitsToNat
  rw [List.foldl_append]
  rfl

theorem natDigitsAux_small (f n : Nat) (h : n < 10) :
    natDigitsAux (f + 1) n = [digitChar48 n] := by
  show (if n < 10 then [digitChar48 n]
    else natDigitsAux f (n / 10) ++ [digitChar48 (n % 10)]) = [digitChar48 n]
  rw [if_pos h]

theorem natDigitsAux_big (f n : Nat) (h : 10 ≤ n) :
    natDigitsAux (f + 1) n =
      natDigitsAux f (n / 10) ++ [digitChar48 (n % 10)] := by
  show (if n < 10 then [digitChar48 n]
    else natDigitsAux f (n / 10) ++ [digitChar48 (n % 10)]) = _
  rw [if_neg (by omega)]

theorem natDigitsAux_value : ∀ f n, n < 10 ^ f →
    digitsToNat (natDigitsAux f n) = n := by
  intro f
  induction f with
  | zero =>
    intro n h
    have : n = 0 := by simpa using h
    subst this
    rfl
  | succ f ih =>
    intro n h
    by_cases hn : n < 10
    · rw [natDigitsAux_small f n hn]
      show digitsToNat [digitChar48 n] = n
      unfold digitsToNat
      simp [digitVal_digitChar48 n hn]
    · rw [natDigitsAux_big f n (by omega), digitsToNat_append_one]
      have hdiv : n / 10 < 10 ^ f := by
        rw [Nat.div_lt_iff_lt_mul (by norm_num)]
        calc n < 10 ^ (f + 1) := h
        _ = 10 ^ f * 10 := by rw [pow_succ]
      rw [ih (n / 10) hdiv, digitVal_digitChar48 (n % 10) (by omega)]
      omega

theorem digitsToNat_natStr (n : Nat) : digitsToNat (natStr n) = n := by
  unfold natStr
  refine natDigitsAux_value (n + 1) n ?_
  calc n < 10 ^ n := Nat.lt_pow_self (by norm_num) n
  _ ≤ 10 ^ (n + 1) := Nat.pow_le_pow_right (by norm_num) (by omega)

theorem natDigitsAux_all_digit : ∀ f n c, c ∈ natDigitsAux f n →
    isDigitC c = true := by
  intro f
  induction f with
  | zero => intro n c h; exact absurd h (List.not_mem_nil c)
  | succ f ih =>
    intro n c h
    by_cases hn : n < 10
    · rw [natDigitsAux_small f n hn] at h
      rcases List.mem_singleton.mp h with rfl
      exact isDigitC_digitChar48 n hn
    · rw [natDigitsAux_big f n (by omega)] at h
      rcases List.mem_append.mp h with h' | h'
      · exact ih (n / 10) c h'
      · rcases List.mem_singleton.mp h' with rfl
        exact isDigitC_digitChar48 (n % 10) (by omega)

theorem natStr_all_digit (n : Nat) (c : Char) (h : c ∈ natStr n) :
    isDigitC c = true := natDigitsAux_all_digit (n + 1) n c h

theorem natDigitsAux_length : ∀ f k n, 10 ^ k ≤ n → n < 10 ^ (k + 1) →
    k < f → (natDigitsAux f n).length = k + 1 := by
  intro f
  induction f with
  | zero => intro k n _ _ h; omega
  | succ f ih =>
    intro k n hlo hhi hk
    by_cases hn : n < 10
    · have hk0 : k = 0 := by
        by_contra hne
        have h1 : 1 ≤ k := by omega
        have : (10 : Nat) ^ 1 ≤ 10 ^ k := Nat.pow_le_pow_right (by norm_num) h1
        simp at this
        omega
      subst hk0
      rw [natDigitsAux_small f n hn]
      rfl
    · obtain ⟨k', rfl⟩ : ∃ k', k = k' + 1 := by
        refine ⟨k - 1, ?_⟩
        by_contra hne
        have hk0 : k = 0 := by omega
        subst hk0
        simp at hhi
        omega
      rw [natDigitsAux_big f n (by omega)]
      rw [List.length_append]
      have hlo' : 10 ^ k' ≤ n / 10 := by
        rw [Nat.le_div_iff_mul_le (by norm_num)]
        calc 10 ^ k' * 10 = 10 ^ (k' + 1) := by rw [pow_succ]
        _ ≤ n := hlo
      have hhi' : n / 10 < 10 ^ (k' + 1) := by
        rw [Nat.div_lt_iff_lt_mul (by norm_num)]
        calc n < 10 ^ (k' + 1 + 1) := hhi
        _ = 10 ^ (k' + 1) * 10 := by rw [pow_succ]
      rw [ih k' (n / 10) hlo' hhi' (by omega)]
      rfl

theorem natStr_length2 (n : Nat) (h1 : 10 ≤ n) (h2 : n < 100) :
    (natStr n).length = 2 := by
  unfold natStr
  exact natDigitsAux_length (n + 1) 1 n (by simpa using h1)
    (by norm_num; omega) (by omega)

theorem natStr_length4 (n : Nat) (h1 : 1000 ≤ n) (h2 : n < 10000) :
    (natStr n).length = 4 := by
  unfold natStr
  exact natDigitsAux_length (n + 1) 3 n (by norm_num; omega)
    (by norm_num; omega) (by omega)

theorem natStr_small (n : Nat) (h : n < 10) :
    natStr n = [digitChar48 n] := natDigitsAux_small n n h

theorem pad2_length (n : Nat) (h : n < 100) : (pad2 n).length = 2 := by
  unfold pad2
  by_cases hn : n < 10
  · rw [if_pos hn, natStr_small n hn]
    rfl
  · rw [if_neg hn]
    exact natStr_length2 n (by omega) h

theorem pad2_all_digit (n : Nat) (h : n < 100) (c : Char)
    (hc : c ∈ pad2 n) : isDigitC c = true := by
  unfold pad2 at hc
  by_cases hn : n < 10
  · rw [if_pos hn] at hc
    rcases List.mem_cons.mp hc with rfl | hc'
    · decide
    · exact natStr_all_digit n c hc'
  · rw [if_neg hn] at hc
    exact natStr_all_digit n c hc

theorem digitsToNat_pad2 (n : Nat) (h : n < 100) :
    digitsToNat (pad2 n) = n := by
  unfold pad2
  by_cases hn : n < 10
  · rw [if_pos hn, natStr_small n hn]
    show digitsToNat ['0', digitChar48 n] = n
    unfold digitsToNat
    simp [List.foldl, digitVal_digitChar48 n hn]
    decide
  · rw [if_neg hn]
    exact digitsToNat_natStr n

theorem ne_dash_of_digit (c : Char) (h : isDigitC c = true) : c ≠ '-' := by
  intro heq
  subst heq
  exact absurd h (by decide)

/-! ## Lemmas about splitting and the strptime fields -/

theorem splitAux_no_sep_append (sep : Char) (a l : List Char)
    (h : ∀ c ∈ a, c ≠ sep) :
    splitAux sep (a ++ l) =
      (a ++ (splitAux sep l).1, (splitAux sep l).2) := by
  induction a with
  | nil => simp
  | cons c a' ih =>
    have hc : c ≠ sep := h c (by simp)
    show (let r := splitAux sep (a' ++ l)
      if c = sep then ([], r.1 :: r.2) else (c :: r.1, r.2)) = _
    rw [ih fun x hx => h x (by simp [hx])]
    simp [hc]

theorem splitAux_sep_cons (sep : Char) (l : List Char) :
    splitAux sep (sep :: l) =
      ([], (splitAux sep l).1 :: (splitAux sep l).2) := by
  show (let r := splitAux sep l
    if sep = sep then ([], r.1 :: r.2) else (sep :: r.1, r.2)) = _
  simp

theorem splitAux_no_sep (sep : Char) (a : List Char)
    (h : ∀ c ∈ a, c ≠ sep) : splitAux sep a = (a, []) := by
  have h2 := splitAux_no_sep_append sep a [] h
  have h0 : splitAux sep [] = ([], []) := rfl
  rw [h0] at h2
  simpa using h2

theorem splitOnC_three (sep : Char) (a b c : List Char)
    (ha : ∀ x ∈ a, x ≠ sep) (hb : ∀ x ∈ b, x ≠ sep)
    (hc : ∀ x ∈ c, x ≠ sep) :
    splitOnC sep (a ++ sep :: (b ++ sep :: c)) = [a, b, c] := by
  unfold splitOnC
  rw [splitAux_no_sep_append sep a _ ha, splitAux_sep_cons,
    splitAux_no_sep_append sep b _ hb, splitAux_sep_cons,
    splitAux_no_sep sep c hc]
  simp

theorem matchDay_pad2 (n : Nat) (h1 : 1 ≤ n) (h2 : n ≤ 31) :
    matchDay (pad2 n) = some n := by
  have hlen : (pad2 n).length = 2 := pad2_length n (by omega)
  have hval : digitsToNat (pad2 n) = n := digitsToNat_pad2 n (by omega)
  unfold matchDay
  rw [if_pos]
  · rw [hval]
  · refine ⟨?_, by omega, ?_, by omega, by omega⟩
    · intro hnil
      rw [hnil] at hlen
      simp at hlen
    · rw [List.all_eq_true]
      intro c hcmem
      exact pad2_all_digit n (by omega) c hcmem

theorem matchMonth_pad2 (n : Nat) (h1 : 1 ≤ n) (h2 : n ≤ 12) :
    matchMonth (pad2 n) = some n := by
  have hlen : (pad2 n).length = 2 := pad2_length n (by omega)
  have hval : digitsToNat (pad2 n) = n := digitsToNat_pad2 n (by omega)
  unfold matchMonth
  rw [if_pos]
  · rw [hval]
  · refine ⟨?_, by omega, ?_, by omega, by omega⟩
    · intro hnil
      rw [hnil] at hlen
      simp at hlen
    · rw [List.all_eq_true]
      intro c hcmem
      exact pad2_all_digit n (by omega) c hcmem

theorem matchYear_natStr (y : Nat) (h1 : 1000 ≤ y) (h2 : y ≤ 9999) :
    matchYear (natStr y) = some y := by
  unfold matchYear
  rw [if_pos]
  · rw [digitsToNat_natStr]
  · refine ⟨natStr_length4 y h1 (by omega), ?_⟩
    rw [List.all_eq_true]
    intro c hcmem
    exact natStr_all_digit y c hcmem

theorem daysInMonth_le_31 (y m : Nat) : daysInMonth y m ≤ 31 := by
  unfold daysInMonth
  split
  · split <;> omega
  · split <;> omega

/-! ## The round trip through the canonical write format -/

theorem strftime_data (d : DateT) :
    (strftime_ddmmyyyy d).data =
      pad2 d.day ++ '-' :: (pad2 d.month ++ '-' :: natStr d.year) := by
  simp [strftime_ddmmyyyy]

theorem validDateB_spec (y m d : Nat) (h : validDateB y m d = true) :
    1 ≤ y ∧ y ≤ 9999 ∧ 1 ≤ m ∧ m ≤ 12 ∧ 1 ≤ d ∧ d ≤ daysInMonth y m := by
  unfold validDateB at h
  simp only [Bool.and_eq_true, decide_eq_true_eq] at h
  tauto

theorem roundtrip_format_parse (y m day : Nat)
    (hv : validDateB y m day = true) (hy : 1000 ≤ y) :
    parse_date_input (some (strftime_ddmmyyyy ⟨y, m, day⟩)) =
      some ⟨y, m, day⟩ := by
  obtain ⟨h1, h2, h3, h4, h5, h6⟩ := validDateB_spec y m day hv
  have hday31 : day ≤ 31 := le_trans h6 (daysInMonth_le_31 y m)
  rw [parse_eq_clean, strftime_data]
  have hkeep : cleanChars (pad2 day ++ '-' :: (pad2 m ++ '-' :: natStr y)) =
      pad2 day ++ '-' :: (pad2 m ++ '-' :: natStr y) := by
    unfold cleanChars
    rw [List.filter_eq_self]
    intro c hc
    simp only [List.mem_append, List.mem_cons] at hc
    rcases hc with hc | hc | hc | hc | hc
    · simp [pad2_all_digit day (by omega) c hc]
    · subst hc; decide
    · simp [pad2_all_digit m (by omega) c hc]
    · subst hc; decide
    · simp [natStr_all_digit y c hc]
  rw [hkeep]
  have hsplit : splitOnC '-' (pad2 day ++ '-' :: (pad2 m ++ '-' :: natStr y)) =
      [pad2 day, pad2 m, natStr y] := by
    refine splitOnC_three '-' _ _ _ ?_ ?_ ?_
    · intro x hx; exact ne_dash_of_digit x (pad2_all_digit day (by omega) x hx)
    · intro x hx; exact ne_dash_of_digit x (pad2_all_digit m (by omega) x hx)
    · intro x hx; exact ne_dash_of_digit x (natStr_all_digit y x hx)
  have hfmt : tryFormat '-' .dmy
      (pad2 day ++ '-' :: (pad2 m ++ '-' :: natStr y)) =
      some ⟨y, m, day⟩ := by
    have hbody : tryFormat '-' .dmy
        (pad2 day ++ '-' :: (pad2 m ++ '-' :: natStr y)) =
        (matchDay (pad2 day)).bind fun dd =>
          (matchMonth (pad2 m)).bind fun mm =>
            (matchYear (natStr y)).bind fun yy => mkDatetime yy mm dd := by
      unfold tryFormat
      rw [hsplit]
    rw [hbody, matchDay_pad2 day h5 hday31, matchMonth_pad2 m h3 h4,
      matchYear_natStr y hy h2]
    show mkDatetime y m day = some ⟨y, m, day⟩
    unfold mkDatetime
    rw [if_pos hv]
  exact tryAll_first_dmy _ _ hfmt

/-! ## Lemmas about the canonical-name table -/

theorem lookupM_mem {α : Type} (l : List (String × α)) (k : String) (v : α)
    (h : lookupM l k = some v) : (k, v) ∈ l := by
  induction l with
  | nil => simp [lookupM] at h
  | cons p rest ih =>
    obtain ⟨k', v'⟩ := p
    unfold lookupM at h
    by_cases hk : k' = k
    · rw [if_pos hk] at h
      have := Option.some.inj h
      subst hk
      subst this
      exact List.mem_cons_self _ _
    · rw [if_neg hk] at h
      exact List.mem_cons_of_mem _ (ih h)

theorem lookupM_append {α : Type} (l l2 : List (String × α)) (k : String) :
    lookupM (l ++ l2) k =
      match lookupM l k with
      | some v => some v
      | none => lookupM l2 k := by
  induction l with
  | nil => simp [lookupM]
  | cons p rest ih =>
    obtain ⟨k', v'⟩ := p
    show lookupM ((k', v') :: (rest ++ l2)) k = _
    unfold lookupM
    by_cases hk : k' = k
    · rw [if_pos hk, if_pos hk]
    · rw [if_neg hk, if_neg hk, ih]
      cases lookupM rest k with
      | some v => rfl
      | none =>
        cases l2 with
        | nil => rfl
        | cons q qs => rfl

theorem lookupM_map_val {α β : Type} (f : α → β) (l : List (String × α))
    (k : String) :
    lookupM (l.map fun p => (p.1, f p.2)) k = (lookupM l k).map f := by
  induction l with
  | nil => simp [lookupM]
  | cons p rest ih =>
    obtain ⟨k', v'⟩ := p
    show lookupM ((k', f v') :: rest.map fun p => (p.1, f p.2)) k = _
    unfold lookupM
    by_cases hk : k' = k
    · rw [if_pos hk, if_pos hk]
      rfl
    · rw [if_neg hk, if_neg hk, ih]

/-- Invariant of every canonical-name table reachable by the tracker:
every stored value is a stripped string whose lowercase form is its
own key. -/
def goodMapping (m : List (String × String)) : Prop :=
  ∀ k v, lookupM m k = some v → stripS v = v ∧ lowerStr v = k

/-- Invariant of the `name_variations` counting table. -/
def varInv (acc : List (String × List (String × Nat))) : Prop :=
  ∀ p ∈ acc, p.2 ≠ [] ∧ ∀ q ∈ p.2, stripS q.1 = q.1 ∧ lowerStr q.1 = p.1

theorem bumpInner_ne_nil (v : List (String × Nat)) (o : String) :
    bumpInner v o ≠ [] := by
  cases v with
  | nil => simp [bumpInner]
  | cons p rest =>
    obtain ⟨k, n⟩ := p
    unfold bumpInner
    split <;> simp

theorem bumpInner_mem (v : List (String × Nat)) (o : String)
    (q : String × Nat) (h : q ∈ bumpInner v o) :
    q.1 = o ∨ ∃ n, (q.1, n) ∈ v := by
  induction v with
  | nil =>
    left
    simp [bumpInner] at h
    rw [h]
  | cons p rest ih =>
    obtain ⟨k, n⟩ := p
    unfold bumpInner at h
    by_cases hk : k = o
    · rw [if_pos hk] at h
      rcases List.mem_cons.mp h with rfl | h'
      · left; exact hk
      · right
        refine ⟨q.2, ?_⟩
        exact List.mem_cons_of_mem _ (by simpa using h')
    · rw [if_neg hk] at h
      rcases List.mem_cons.mp h with rfl | h'
      · right; exact ⟨n, List.mem_cons_self _ _⟩
      · rcases ih h' with h'' | ⟨n', hn'⟩
        · left; exact h''
        · right; exact ⟨n', List.mem_cons_of_mem _ hn'⟩

theorem varInv_bumpOuter (k o : String) (ho1 : stripS o = o)
    (ho2 : lowerStr o = k) :
    ∀ acc, varInv acc → varInv (bumpOuter acc k o) := by
  intro acc
  induction acc with
  | nil =>
    intro _ p hp
    simp [bumpOuter] at hp
    subst hp
    refine ⟨by simp, ?_⟩
    intro q hq
    simp at hq
    rw [hq]
    exact ⟨ho1, ho2⟩
  | cons entry rest ih =>
    intro hinv
    obtain ⟨k', v⟩ := entry
    unfold bumpOuter
    by_cases hk : k' = k
    · rw [if_pos hk]
      intro p hp
      rcases List.mem_cons.mp hp with rfl | hp'
      · refine ⟨bumpInner_ne_nil v o, ?_⟩
        intro q hq
        rcases bumpInner_mem v o q hq with hq' | ⟨n, hn⟩
        · rw [hq']
          exact ⟨ho1, by rw [ho2, hk]⟩
        · have := (hinv (k', v) (List.mem_cons_self _ _)).2 (q.1, n) hn
          exact this
      · exact hinv p (List.mem_cons_of_mem _ hp')
    · rw [if_neg hk]
      intro p hp
      rcases List.mem_cons.mp hp with rfl | hp'
      · exact hinv _ (List.mem_cons_self _ _)
      · exact ih (fun p' hp'' => hinv p' (List.mem_cons_of_mem _ hp'')) p hp'

theorem buildVariations_inv (cells : List (Option String)) :
    varInv (buildVariations cells) := by
  have main : ∀ (cs : List (Option String)) acc, varInv acc →
      varInv (cs.foldl
        (fun acc c =>
          match c with
          | none => acc
          | some cat => bumpOuter acc (lowerStr (stripS cat)) (stripS cat))
        acc) := by
    intro cs
    induction cs with
    | nil => intro acc h; exact h
    | cons c rest ih =>
      intro acc h
      rw [List.foldl_cons]
      cases c with
      | none => exact ih acc h
      | some cat =>
        exact ih _ (varInv_bumpOuter _ _ (stripS_idem cat) rfl acc h)
  exact main cells [] (by intro p hp; exact absurd hp (List.not_mem_nil p))

theorem pickMax_decomp : ∀ (l : List (String × Nat)) (b : String × Nat),
    ∃ pre post, b :: l = pre ++ pickMax b l :: post ∧
      (∀ x ∈ pre, x.2 < (pickMax b l).2) ∧
      (∀ x ∈ post, x.2 ≤ (pickMax b l).2) := by
  intro l
  induction l with
  | nil =>
    intro b
    exact ⟨[], [], by simp [pickMax], by simp, by simp⟩
  | cons hd rest ih =>
    intro b
    obtain ⟨o, n⟩ := hd
    by_cases hlt : b.2 < n
    · have hpm : pickMax b ((o, n) :: rest) = pickMax (o, n) rest := by
        show (if b.2 < n then pickMax (o, n) rest else pickMax b rest) = _
        rw [if_pos hlt]
      obtain ⟨pre, post, hdec, hpre, hpost⟩ := ih (o, n)
      have hn_le : n ≤ (pickMax (o, n) rest).2 := by
        rcases pre with _ | ⟨p, ps⟩
        · rw [List.nil_append] at hdec
          have he := (List.cons.inj hdec).1
          rw [← he]
        · rw [List.cons_append] at hdec
          have hp := (List.cons.inj hdec).1
          have hmem := hpre p (List.mem_cons_self _ _)
          rw [← hp] at hmem
          exact le_of_lt hmem
      rw [hpm]
      refine ⟨b :: pre, post, ?_, ?_, ?_⟩
      · rw [List.cons_append, ← hdec]
      · intro x hx
        rcases List.mem_cons.mp hx with rfl | hx'
        · omega
        · exact hpre x hx'
      · intro x hx
        exact hpost x hx
    · have hpm : pickMax b ((o, n) :: rest) = pickMax b rest := by
        show (if b.2 < n then pickMax (o, n) rest else pickMax b rest) = _
        rw [if_neg hlt]
      obtain ⟨pre, post, hdec, hpre, hpost⟩ := ih b
      rw [hpm]
      rcases pre with _ | ⟨p, ps⟩
      · rw [List.nil_append] at hdec
        have he := (List.cons.inj hdec).1
        have hrest := (List.cons.inj hdec).2
        refine ⟨[], (o, n) :: rest, ?_, by simp, ?_⟩
        · rw [List.nil_append, ← he]
        · intro x hx
          rcases List.mem_cons.mp hx with rfl | hx'
          · rw [← he]
            simp
            omega
          · have hx2 : x ∈ post := by rw [← hrest]; exact hx'
            exact hpost x hx2
      · rw [List.cons_append] at hdec
        have hp := (List.cons.inj hdec).1
        have hrest := (List.cons.inj hdec).2
        refine ⟨b :: (o, n) :: ps, post, ?_, ?_, ?_⟩
        · rw [List.cons_append, List.cons_append, ← hrest]
        · intro x hx
          have hb : b.2 < (pickMax b rest).2 := by
            have hmem := hpre p (List.mem_cons_self _ _)
            rw [← hp] at hmem
            exact hmem
          rcases List.mem_cons.mp hx with rfl | hx'
          · exact hb
          · rcases List.mem_cons.mp hx' with rfl | hx''
            · have : n ≤ b.2 := by omega
              simp
              omega
            · exact hpre x (List.mem_cons_of_mem _ hx'')
        · intro x hx
          exact hpost x hx

theorem pickMax_mem (l : List (String × Nat)) (b : String × Nat) :
    pickMax b l ∈ b :: l := by
  obtain ⟨pre, post, hdec, -, -⟩ := pickMax_decomp l b
  rw [hdec]
  exact List.mem_append.mpr (Or.inr (List.mem_cons_self _ _))

theorem lookup_build (cells : List (Option String)) (k : String) :
    lookupM (build_category_name_mapping cells) k =
      (lookupM (buildVariations cells) k).map pickMaxList := by
  unfold build_category_name_mapping
  exact lookupM_map_val pickMaxList (buildVariations cells) k

theorem goodMapping_build (cells : List (Option String)) :
    goodMapping (build_category_name_mapping cells) := by
  intro k v h
  rw [lookup_build] at h
  rcases hvar : lookupM (buildVariations cells) k with _ | vars
  · rw [hvar] at h
    simp at h
  · rw [hvar] at h
    simp at h
    have hmem := lookupM_mem _ _ _ hvar
    obtain ⟨hne, hprops⟩ := buildVariations_inv cells (k, vars) hmem
    rcases vars with _ | ⟨x, xs⟩
    · exact absurd rfl hne
    · have hpm : pickMaxList (x :: xs) = (pickMax x xs).1 := rfl
      have hprop := hprops (pickMax x xs) (pickMax_mem xs x)
      rw [← h, hpm]
      exact hprop

theorem goodMapping_register (m : List (String × String)) (c : String)
    (h : goodMapping m) : goodMapping (registerCategory m c) := by
  unfold registerCategory
  by_cases hl : (lookupM m (lowerStr (stripS c))).isNone
  · rw [if_pos hl]
    intro k v hkv
    rw [lookupM_append] at hkv
    rcases hm : lookupM m k with _ | u
    · rw [hm] at hkv
      simp only at hkv
      unfold lookupM at hkv
      by_cases hk : lowerStr (stripS c) = k
      · rw [if_pos hk] at hkv
        have hv := Option.some.inj hkv
        have hnone : lookupM m (lowerStr (stripS c)) = none := by
          cases hx : lookupM m (lowerStr (stripS c)) with
          | none => rfl
          | some u => rw [hx] at hl; simp at hl
        have hnn : nameNorm m c = stripS c := by
          unfold nameNorm
          rw [hnone]
        rw [hnn] at hv
        subst hv
        exact ⟨stripS_idem c, hk⟩
      · rw [if_neg hk] at hkv
        simp [lookupM] at hkv
    · rw [hm] at hkv
      simp only at hkv
      have := Option.some.inj hkv
      subst this
      exact h k u hm
  · rw [if_neg hl]
    exact h

theorem nameNorm_idem (m : List (String × String)) (x : Option String)
    (h : goodMapping m) :
    normalize_category_name m (normalize_category_name m x) =
      normalize_category_name m x := by
  cases x with
  | none => rfl
  | some s =>
    show some (nameNorm m (nameNorm m s)) = some (nameNorm m s)
    congr 1
    cases hl : lookupM m (lowerStr (stripS s)) with
    | some c =>
      obtain ⟨hc1, hc2⟩ := h _ _ hl
      have h1 : nameNorm m s = c := by
        unfold nameNorm
        rw [hl]
      rw [h1]
      unfold nameNorm
      rw [hc1, hc2, hl]
    | none =>
      have h1 : nameNorm m s = stripS s := by
        unfold nameNorm
        rw [hl]
      rw [h1]
      unfold nameNorm
      rw [stripS_idem, hl]

/-! ## Lemmas about the category report ordering -/

theorem insStr_mem (x : String) (l : List String) (a : String) :
    a ∈ insStr x l ↔ a = x ∨ a ∈ l := by
  induction l with
  | nil => simp [insStr]
  | cons y ys ih =>
    unfold insStr
    by_cases h : x < y
    · rw [if_pos h]
      simp [List.mem_cons]
    · rw [if_neg h]
      simp [List.mem_cons, ih]
      tauto

theorem insStr_perm (x : String) (l : List String) :
    (insStr x l).Perm (x :: l) := by
  induction l with
  | nil => simp [insStr]
  | cons y ys ih =>
    unfold insStr
    by_cases h : x < y
    · rw [if_pos h]
    · rw [if_neg h]
      exact (ih.cons y).trans (List.Perm.swap x y ys)

theorem sortStr_perm (l : List String) : (sortStr l).Perm l := by
  induction l with
  | nil => simp [sortStr]
  | cons x xs ih =>
    show (insStr x (sortStr xs)).Perm (x :: xs)
    exact (insStr_perm x (sortStr xs)).trans (ih.cons x)

theorem insStr_sorted (x : String) (l : List String)
    (h : l.Pairwise (· ≤ ·)) : (insStr x l).Pairwise (· ≤ ·) := by
  induction l with
  | nil => simp [insStr]
  | cons y ys ih =>
    rw [List.pairwise_cons] at h
    obtain ⟨h1, h2⟩ := h
    unfold insStr
    by_cases hxy : x < y
    · rw [if_pos hxy]
      refine List.pairwise_cons.mpr ⟨?_, List.pairwise_cons.mpr ⟨h1, h2⟩⟩
      intro z hz
      rcases List.mem_cons.mp hz with rfl | hz'
      · exact le_of_lt hxy
      · exact le_trans (le_of_lt hxy) (h1 z hz')
    · rw [if_neg hxy]
      refine List.pairwise_cons.mpr ⟨?_, ih h2⟩
      intro z hz
      rcases (insStr_mem x ys z).mp hz with rfl | hz'
      · exact le_of_not_lt hxy
      · exact h1 z hz'

theorem sortStr_sorted (l : List String) :
    (sortStr l).Pairwise (· ≤ ·) := by
  induction l with
  | nil => simp [sortStr]
  | cons x xs ih => exact insStr_sorted x (sortStr xs) ih

theorem sortedCats_nodup (rows : List Row) : (sortedCats rows).Nodup := by
  unfold sortedCats
  exact (sortStr_perm (catCells rows).dedup).symm.nodup
    (List.nodup_dedup (catCells rows))

theorem sortedCats_sorted_lt (rows : List Row) :
    (sortedCats rows).Pairwise (· < ·) := by
  have h1 := sortStr_sorted (catCells rows).dedup
  have h2 : (sortedCats rows).Pairwise (· ≠ ·) := sortedCats_nodup rows
  have h3 := (h1.and h2)
  exact h3.imp fun h => lt_of_le_of_ne h.1 h.2

theorem sortedCats_mem (rows : List Row) (c : String) :
    c ∈ sortedCats rows ↔ c ∈ catCells rows := by
  unfold sortedCats
  constructor
  · intro h
    exact List.mem_dedup.mp ((sortStr_perm _).mem_iff.mp h)
  · intro h
    exact (sortStr_perm _).mem_iff.mpr (List.mem_dedup.mpr h)

/-- The strict order in which `sort_values(ascending=False)` leaves the
report: totals descending, equal totals in the ascending key order of
the `groupby` index (the stable descending sort preserves the order of
tied elements). -/
def catQ (a b : CatRow) : Prop :=
  b.total < a.total ∨ (a.total = b.total ∧ a.category < b.category)

theorem insTot_mem (x : CatRow) (l : List CatRow) (a : CatRow) :
    a ∈ insTot x l ↔ a = x ∨ a ∈ l := by
  induction l with
  | nil => simp [insTot]
  | cons y ys ih =>
    unfold insTot
    by_cases h : y.total ≤ x.total
    · rw [if_pos h]
      simp [List.mem_cons]
    · rw [if_neg h]
      simp [List.mem_cons, ih]
      tauto

theorem insTot_perm (x : CatRow) (l : List CatRow) :
    (insTot x l).Perm (x :: l) := by
  induction l with
  | nil => simp [insTot]
  | cons y ys ih =>
    unfold insTot
    by_cases h : y.total ≤ x.total
    · rw [if_pos h]
    · rw [if_neg h]
      exact (ih.cons y).trans (List.Perm.swap x y ys)

theorem sortTot_perm (l : List CatRow) : (sortTot l).Perm l := by
  induction l with
  | nil => simp [sortTot]
  | cons x xs ih =>
    show (insTot x (sortTot xs)).Perm (x :: xs)
    exact (insTot_perm x (sortTot xs)).trans (ih.cons x)

theorem sortTot_mem' (l : List CatRow) (a : CatRow) :
    a ∈ sortTot l ↔ a ∈ l := by
  induction l with
  | nil => simp [sortTot]
  | cons x xs ih =>
    show a ∈ insTot x (sortTot xs) ↔ _
    rw [insTot_mem, ih]
    simp [List.mem_cons]

theorem catQ_total_le (a b : CatRow) (h : catQ a b) : b.total ≤ a.total := by
  rcases h with h | ⟨h, -⟩
  · exact le_of_lt h
  · exact le_of_eq h.symm

theorem insTot_pairwiseQ (x : CatRow) (l : List CatRow)
    (hl : l.Pairwise catQ) (hx : ∀ y ∈ l, x.category < y.category) :
    (insTot x l).Pairwise catQ := by
  induction l with
  | nil => simp [insTot, List.pairwise_cons]
  | cons y ys ih =>
    rw [List.pairwise_cons] at hl
    obtain ⟨h1, h2⟩ := hl
    unfold insTot
    by_cases hxy : y.total ≤ x.total
    · rw [if_pos hxy]
      refine List.pairwise_cons.mpr ⟨?_, List.pairwise_cons.mpr ⟨h1, h2⟩⟩
      intro z hz
      rcases List.mem_cons.mp hz with rfl | hz'
      · rcases lt_or_eq_of_le hxy with hlt | heq
        · exact Or.inl hlt
        · exact Or.inr ⟨heq.symm, hx z (List.mem_cons_self _ _)⟩
      · have hzy : z.total ≤ y.total := catQ_total_le y z (h1 z hz')
        rcases lt_or_eq_of_le (le_trans hzy hxy) with hlt | heq
        · exact Or.inl hlt
        · exact Or.inr ⟨heq.symm, hx z (List.mem_cons_of_mem _ hz')⟩
    · rw [if_neg hxy]
      refine List.pairwise_cons.mpr
        ⟨?_, ih h2 fun z hz => hx z (List.mem_cons_of_mem _ hz)⟩
      intro z hz
      rcases (insTot_mem x ys z).mp hz with rfl | hz'
      · exact Or.inl (lt_of_not_le hxy)
      · exact h1 z hz'

theorem sortTot_pairwiseQ (l : List CatRow)
    (h : l.Pairwise fun a b => a.category < b.category) :
    (sortTot l).Pairwise catQ := by
  induction l with
  | nil => simp [sortTot]
  | cons x xs ih =>
    rw [List.pairwise_cons] at h
    obtain ⟨h1, h2⟩ := h
    show (insTot x (sortTot xs)).Pairwise catQ
    refine insTot_pairwiseQ x (sortTot xs) (ih h2) ?_
    intro y hy
    exact h1 y ((sortTot_mem' xs y).mp hy)

/-- One row of the report as built for key `c` (the columns of the
`category_report` frame). -/
def catRowOf (rows : List Row) (c : String) : CatRow :=
  { category := c
    total := catSum rows c
    count := catCount rows c
    percentage := round2 (catSum rows c / grandTotal rows * 100) }

theorem analyze_categories_eq (rows : List Row) (h : rows ≠ []) :
    analyze_categories rows =
      sortTot ((sortedCats rows).map (catRowOf rows)) := by
  have hb : rows.isEmpty = false := by
    cases rows with
    | nil => exact absurd rfl h
    | cons a l => rfl
  unfold analyze_categories
  rw [if_neg (by simp [hb])]
  rfl

/-! ## Demonstration data -/

/-- A one-record ledger used in concrete instances. -/
def demoLedger : List Row :=
  [⟨some ⟨2024, 3, 15⟩, some "Food", some 10, some ""⟩]

/-- Two records with distinct categories and equal totals (a tie for
the report sort). -/
def demoTieRows : List Row :=
  [⟨some ⟨2024, 3, 1⟩, some "A", some 10, some ""⟩,
   ⟨some ⟨2024, 3, 2⟩, some "B", some 10, some ""⟩]

/-- The same two records in the opposite ledger order (first-seen
category order reversed). -/
def demoTieRowsSwapped : List Row :=
  [⟨some ⟨2024, 3, 2⟩, some "B", some 10, some ""⟩,
   ⟨some ⟨2024, 3, 1⟩, some "A", some 10, some ""⟩]

/-- The category keys in first-seen ledger order (what a stable
tie-break on insertion order would preserve). -/
def firstSeenCats (rows : List Row) : List String :=
  (catCells rows).foldl (fun acc c => if c ∈ acc then acc else acc ++ [c]) []

/-- A raw CSV with a bad date, a non-numeric amount, a negative
amount, a zero amount, and one fully valid row. -/
def demoRaws : List RawRow :=
  [⟨some "garbage", some "Misc", some "10", some ""⟩,
   ⟨some "15/03/2024", some "Food", some "abc", some ""⟩,
   ⟨some "15/03/2024", some "Food", some "-5", some ""⟩,
   ⟨some "15/03/2024", some "Food", some "0", some ""⟩,
   ⟨some "15/03/2024", some "Groceries", some "45.50", some "Weekly shop"⟩]

/-- A small tracker state for the `add_new_expense` instances. -/
def demoState : TrackerState := ⟨demoLedger, [("food", "Food")]⟩

/-! ## Claim theorems -/

/-- C1: after `load_expense_data`, every retained record has a parsed
(non-None) date and an amount strictly greater than 0; rows whose date
fails to parse, whose amount is non-numeric, or whose amount is ≤ 0
are dropped (the result is a shorter list, never a failure), as the
concrete five-row instance shows. -/
theorem spec_C1 :
    (∀ raws (r : Row), r ∈ load_expense_data raws →
        r.date.isSome = true ∧ ∃ a, r.amount = some a ∧ 0 < a) ∧
    (∀ raws, (load_expense_data raws).length ≤ raws.length) ∧
    load_expense_data demoRaws =
      [⟨some ⟨2024, 3, 15⟩, some "Groceries", some (mkRat 91 2),
        some "Weekly shop"⟩] := by
  refine ⟨?_, ?_, by set_option maxRecDepth 4000 in with_unfolding_all decide⟩
  · intro raws r hr
    unfold load_expense_data at hr
    obtain ⟨hmem1, hpos⟩ := List.mem_filter.mp hr
    obtain ⟨-, hsome⟩ := List.mem_filter.mp hmem1
    rw [Bool.and_eq_true] at hsome
    refine ⟨hsome.1, ?_⟩
    rcases ha : r.amount with _ | a
    · rw [ha] at hsome
      simp at hsome
    · refine ⟨a, rfl, ?_⟩
      unfold amountPos at hpos
      rw [ha] at hpos
      simpa using hpos
  · intro raws
    have l1 := List.length_filter_le amountPos
      ((raws.map coerceRow).filter fun r => r.date.isSome && r.amount.isSome)
    have l2 := List.length_filter_le
      (fun r => r.date.isSome && r.amount.isSome) (raws.map coerceRow)
    have l3 : (raws.map coerceRow).length = raws.length :=
      List.length_map raws coerceRow
    unfold load_expense_data
    omega

/-- C1 witness: the retained record of the concrete load instance
satisfies the invariant. -/
theorem spec_C1_witness :
    (⟨some ⟨2024, 3, 15⟩, some "Groceries", some (mkRat 91 2),
      some "Weekly shop"⟩ : Row).date.isSome = true ∧
    ∃ a, (⟨some ⟨2024, 3, 15⟩, some "Groceries", some (mkRat 91 2),
      some "Weekly shop"⟩ : Row).amount = some a ∧ 0 < a :=
  spec_C1.1 demoRaws _ (by
    rw [spec_C1.2.2]
    exact List.mem_singleton.mpr rfl)

/-- C2: `parse_date_input` equals the ordered format loop applied to
the input stripped of every character other than digits, `/`, `.`,
`-`; the first (Day-Month-Year, dash) format wins whenever it
matches, so `03-04-2024` parses as day 3 / month 4, `12-13-2024`
falls through to Month-Day-Year, and the month-only forms default the
day to 1. -/
theorem spec_C2 :
    (∀ s : String, parse_date_input (some s) = tryAllFormats (cleanChars s.data)) ∧
    (∀ (l : List Char) (d : DateT),
        tryFormat '-' .dmy l = some d → tryAllFormats l = some d) ∧
    parse_date_input (some "03-04-2024") = some ⟨2024, 4, 3⟩ ∧
    parse_date_input (some "12-13-2024") = some ⟨2024, 12, 13⟩ ∧
    parse_date_input (some "04-2024") = some ⟨2024, 4, 1⟩ ∧
    parse_date_input (some "2024-04") = some ⟨2024, 4, 1⟩ ∧
    parse_date_input (some " x03/04/2024y ") = some ⟨2024, 4, 3⟩ :=
  ⟨parse_eq_clean, tryAll_first_dmy, by decide, by decide, by decide,
    by decide, by decide⟩

/-- C2 witness: the first-format precedence applied at the ambiguous
input `03-04-2024`. -/
theorem spec_C2_witness :
    tryAllFormats (String.data "03-04-2024") = some ⟨2024, 4, 3⟩ :=
  spec_C2.2.1 (String.data "03-04-2024") ⟨2024, 4, 3⟩ (by decide)

/-- C3: every canonical spelling chosen by
`build_category_name_mapping` decomposes its (first-seen-ordered)
variation group as `pre ++ (c, n) :: post` with every earlier spelling
strictly less frequent and every later one no more frequent — i.e. the
most frequent spelling with ties broken in favour of the first
encountered; the 1-vs-3 `groceries`/`Groceries` scenario and a pure
tie both evaluate accordingly. -/
theorem spec_C3 :
    (∀ cells (k c : String),
        lookupM (build_category_name_mapping cells) k = some c →
        ∃ vars pre post n, lookupM (buildVariations cells) k = some vars ∧
          vars = pre ++ (c, n) :: post ∧
          (∀ x ∈ pre, x.2 < n) ∧ (∀ x ∈ post, x.2 ≤ n)) ∧
    build_category_name_mapping
        [some "groceries", some "Groceries", some "Groceries",
         some "Groceries"] = [("groceries", "Groceries")] ∧
    build_category_name_mapping [some "Foo", some "foo"] =
      [("foo", "Foo")] := by
  refine ⟨?_, by decide, by decide⟩
  intro cells k c h
  rw [lookup_build] at h
  rcases hvar : lookupM (buildVariations cells) k with _ | vars
  · rw [hvar] at h
    simp at h
  · rw [hvar] at h
    simp at h
    rcases vars with _ | ⟨x, xs⟩
    · have hmem := lookupM_mem _ _ _ hvar
      have hne := (buildVariations_inv cells _ hmem).1
      exact absurd rfl hne
    · obtain ⟨pre, post, hdec, hpre, hpost⟩ := pickMax_decomp xs x
      refine ⟨x :: xs, pre, post, (pickMax x xs).2, rfl, ?_, hpre, hpost⟩
      rw [hdec]
      have hc : (pickMax x xs).1 = c := h
      rw [← hc]

/-- C3 witness: the decomposition at the concrete tie instance. -/
theorem spec_C3_witness :
    ∃ vars pre post n,
      lookupM (buildVariations [some "Foo", some "foo"]) "foo" = some vars ∧
      vars = pre ++ (("Foo" : String), n) :: post ∧
      (∀ x ∈ pre, x.2 < n) ∧ (∀ x ∈ post, x.2 ≤ n) :=
  spec_C3.1 [some "Foo", some "foo"] "foo" "Foo" (by decide)

/-- C4: `normalize_category_name` looks up the trimmed-lowercase key;
a present key returns the stored canonical spelling (and the add-path
registration leaves the table unchanged), an absent key returns the
trimmed (not lowercased) input and the add-path registration appends
exactly that entry; missing (`None`) and empty input pass through
unchanged (the latter on every reachable table). -/
theorem spec_C4 (m : List (String × String)) (cat : String) :
    (∀ c, lookupM m (lowerStr (stripS cat)) = some c →
        normalize_category_name m (some cat) = some c ∧
        registerCategory m cat = m) ∧
    (lookupM m (lowerStr (stripS cat)) = none →
        normalize_category_name m (some cat) = some (stripS cat) ∧
        registerCategory m cat =
          m ++ [(lowerStr (stripS cat), stripS cat)]) ∧
    normalize_category_name m none = none ∧
    (goodMapping m → normalize_category_name m (some "") = some "") := by
  refine ⟨?_, ?_, rfl, ?_⟩
  · intro c hc
    constructor
    · show some (nameNorm m cat) = some c
      unfold nameNorm
      rw [hc]
    · unfold registerCategory
      rw [if_neg (by simp [hc])]
  · intro hc
    constructor
    · show some (nameNorm m cat) = some (stripS cat)
      unfold nameNorm
      rw [hc]
    · unfold registerCategory
      rw [if_pos (by simp [hc])]
      have hnn : nameNorm m cat = stripS cat := by
        unfold nameNorm
        rw [hc]
      rw [hnn]
  · intro hg
    show some (nameNorm m "") = some ""
    congr 1
    unfold nameNorm
    have hkey : lowerStr (stripS "") = "" := by decide
    rw [hkey]
    cases hl : lookupM m "" with
    | none => decide
    | some v =>
      obtain ⟨-, hv2⟩ := hg "" v hl
      show v = ""
      cases v with
      | mk data =>
        have h2 : (lowerStr (String.mk data)).data = ([] : List Char) := by
          rw [hv2]
        have h3 : List.map lowerC data = [] := h2
        have hdata : data = [] := List.map_eq_nil_iff.mp h3
        rw [hdata]

/-- C4 witness: a present key substitutes the canonical spelling and
leaves the table unchanged. -/
theorem spec_C4_witness :
    normalize_category_name [("food", "Food")] (some " FOOD ") =
      some "Food" ∧
    registerCategory [("food", "Food")] " FOOD " = [("food", "Food")] :=
  (spec_C4 [("food", "Food")] " FOOD ").1 "Food" (by decide)

/-- C5 (amended): on a non-empty ledger the report has one row per
canonical category (a permutation of the distinct, non-NaN category
keys, which are free of duplicates) carrying that category's amount
sum, transaction count and percentage
`round2(total / grand_total * 100)`; rows are sorted descending by
total, and rows tying on total appear in the ascending alphabetical
key order that `groupby` produces (the stable descending sort of
`sort_values(ascending=False)` preserves it) — not in first-seen
ledger order, which `groupby` has already discarded. -/
theorem spec_C5 (rows : List Row) (h : rows ≠ []) :
    (∀ g ∈ analyze_categories rows,
        g.total = catSum rows g.category ∧
        g.count = catCount rows g.category ∧
        g.percentage =
          round2 (catSum rows g.category / grandTotal rows * 100)) ∧
    ((analyze_categories rows).map CatRow.category).Perm
      (sortedCats rows) ∧
    (sortedCats rows).Nodup ∧
    (analyze_categories rows).Pairwise (fun a b => b.total ≤ a.total) ∧
    (analyze_categories rows).Pairwise
      (fun a b => a.total = b.total → a.category < b.category) := by
  have heq := analyze_categories_eq rows h
  have hg_pw : ((sortedCats rows).map (catRowOf rows)).Pairwise
      (fun a b => a.category < b.category) :=
    List.pairwise_map.mpr (sortedCats_sorted_lt rows)
  have hQ := sortTot_pairwiseQ _ hg_pw
  refine ⟨?_, ?_, sortedCats_nodup rows, ?_, ?_⟩
  · intro g hg
    rw [heq, sortTot_mem'] at hg
    rcases List.mem_map.mp hg with ⟨c, -, rfl⟩
    exact ⟨rfl, rfl, rfl⟩
  · rw [heq]
    have h1 : (sortTot ((sortedCats rows).map (catRowOf rows))).Perm
        ((sortedCats rows).map (catRowOf rows)) := sortTot_perm _
    have h2 := h1.map CatRow.category
    have h3 : ((sortedCats rows).map (catRowOf rows)).map CatRow.category =
        sortedCats rows := by
      rw [List.map_map]
      exact List.map_id _
    rw [h3] at h2
    exact h2
  · rw [heq]
    refine hQ.imp ?_
    intro a b hab
    exact catQ_total_le a b hab
  · rw [heq]
    refine hQ.imp ?_
    intro a b hab habeq
    rcases hab with hlt | ⟨-, hcat⟩
    · exact absurd habeq (ne_of_gt hlt)
    · exact hcat

/-- C5 witness: the amended theorem applied to the tie instance. -/
theorem spec_C5_witness :
    (analyze_categories demoTieRows).Pairwise
      (fun a b => b.total ≤ a.total) :=
  (spec_C5 demoTieRows (by decide)).2.2.2.1

/-- C5 counterexample: in the ledger whose records appear in the order
`B` then `A` (first-seen order `[B, A]`) with both categories tying at
total 10, the report comes out `[A, B]` — the ascending `groupby` key
order, not the first-seen order the claim's tie-break asserts.
Moreover the report is identical to that of the ledger with the two
records in the opposite order, although the first-seen orders of the
two ledgers differ — `groupby` discards ledger order, so no tie-break
of this code can reproduce first-seen order on both ledgers,
independently of how the tie order itself is modelled. -/
theorem spec_C5_cex :
    (analyze_categories demoTieRowsSwapped).map CatRow.category =
      ["A", "B"] ∧
    firstSeenCats demoTieRowsSwapped = ["B", "A"] ∧
    (∀ g ∈ analyze_categories demoTieRowsSwapped, g.total = 10) ∧
    (analyze_categories demoTieRowsSwapped).map CatRow.category ≠
      firstSeenCats demoTieRowsSwapped ∧
    analyze_categories demoTieRows =
      analyze_categories demoTieRowsSwapped ∧
    firstSeenCats demoTieRows ≠ firstSeenCats demoTieRowsSwapped := by
  with_unfolding_all decide

/-- C6 (amended): an unparsable non-empty bound string makes
`filter_expenses` print a message and return the bare
`pd.DataFrame()` — an empty, column-less frame — whereas a parsable
bound that matches nothing returns an empty frame that still carries
the standard columns; the two returns differ only in that column
structure (both are `.empty`, which is all the repo's caller checks),
and neither call mutates the tracker state. -/
theorem spec_C6 (rows : List Row) (mp : List (String × String))
    (s e : String) :
    (s ≠ "" → parse_date_input (some s) = none →
        filter_expenses rows (some s) (some e) none = ⟨[], []⟩ ∧
        filter_expenses rows (some s) none none = ⟨[], []⟩) ∧
    (e ≠ "" → parse_date_input (some e) = none →
        filter_expenses rows none (some e) none = ⟨[], []⟩) ∧
    (∀ d, s ≠ "" → parse_date_input (some s) = some d →
        filter_expenses rows (some s) none none =
          ⟨stdCols, rows.filter (dateGe d)⟩ ∧
        (⟨[], []⟩ : DF) ≠ ⟨stdCols, rows.filter (dateGe d)⟩) ∧
    (∀ s' e' m', (filter_expensesS ⟨rows, mp⟩ s' e' m').2 = ⟨rows, mp⟩) := by
  refine ⟨?_, ?_, ?_, fun s' e' m' => rfl⟩
  · intro hs hp
    have ht : truthyS (some s) = true := by simp [truthyS, hs]
    constructor <;>
      simp [filter_expenses, truthyS, ht, hp, hs]
  · intro he hp
    have ht : truthyS (some e) = true := by simp [truthyS, he]
    simp [filter_expenses, truthyS, ht, hp, he]
  · intro d hs hp
    have ht : truthyS (some s) = true := by simp [truthyS, hs]
    constructor
    · simp [filter_expenses, truthyS, ht, hp, hs, applyRange]
    · simp [stdCols]

/-- C6 witness: the amended behaviour at a concrete unparsable bound
and a concrete legitimate empty match. -/
theorem spec_C6_witness :
    filter_expenses demoLedger (some "99-99") none none = ⟨[], []⟩ ∧
    (filter_expensesS ⟨demoLedger, []⟩ (some "99-99") none none).2 =
      ⟨demoLedger, []⟩ :=
  ⟨((spec_C6 demoLedger [] "99-99" "x").1 (by decide) (by decide)).2,
    (spec_C6 demoLedger [] "99-99" "x").2.2.2 (some "99-99") none none⟩

/-- C6 counterexample: the error return for the unparsable bound
`99-99` is empty exactly like the legitimate empty match for the
parsable bound `01-01-2030`, with identical (empty) row contents, so
the caller-visible emptiness test cannot distinguish an invalid bound
from a valid empty result. -/
theorem spec_C6_cex :
    dfEmpty (filter_expenses demoLedger (some "99-99") none none) = true ∧
    dfEmpty (filter_expenses demoLedger (some "01-01-2030") none none) =
      true ∧
    (filter_expenses demoLedger (some "99-99") none none).rows =
      (filter_expenses demoLedger (some "01-01-2030") none none).rows := by
  with_unfolding_all decide

/-- C7: `add_new_expense` validates in order — an unparsable date
(including invalid calendar dates such as 31-02-2024) reports the
invalid-date branch, an unparsable amount the invalid-number branch,
a non-positive amount the must-be-positive branch, each leaving both
the record list and the canonical-name table untouched; on success
exactly one new record is appended (and the table gains at most the
one new key). -/
theorem spec_C7 (st : TrackerState) (now : DateT)
    (rd rc ra rds : String) (cf : Bool) :
    (parse_date_input (some rd) = none →
        add_new_expense st now rd rc ra rds cf = (.invalidDate, st)) ∧
    (∀ d, parse_date_input (some rd) = some d →
        (dateLtB now d && !cf) = false →
        (pyFloat ra = none →
            add_new_expense st now rd rc ra rds cf = (.invalidNumber, st)) ∧
        (∀ a, pyFloat ra = some a → a ≤ 0 →
            add_new_expense st now rd rc ra rds cf =
              (.nonPositiveAmount, st)) ∧
        (∀ a, pyFloat ra = some a → 0 < a →
            add_new_expense st now rd rc ra rds cf =
              (.success,
                ⟨st.expense_data ++
                    [⟨some d,
                      some (nameNorm st.category_name_mapping (stripS rc)),
                      some a, some (stripS rds)⟩],
                  registerCategory st.category_name_mapping (stripS rc)⟩))) := by
  constructor
  · intro hp
    unfold add_new_expense
    rw [hp]
  · intro d hp hfut
    refine ⟨?_, ?_, ?_⟩
    · intro ha
      unfold add_new_expense
      rw [hp]
      dsimp only
      rw [if_neg (by simp [hfut])]
      rw [ha]
    · intro a ha hle
      unfold add_new_expense
      rw [hp]
      dsimp only
      rw [if_neg (by simp [hfut])]
      rw [ha]
      dsimp only
      rw [if_pos hle]
    · intro a ha hpos
      unfold add_new_expense
      rw [hp]
      dsimp only
      rw [if_neg (by simp [hfut])]
      rw [ha]
      dsimp only
      rw [if_neg (not_le.mpr hpos)]

/-- C7 witness: the invalid calendar date 31-02-2024 is rejected with
the invalid-date outcome and the state is unchanged. -/
theorem spec_C7_witness :
    add_new_expense demoState ⟨2025, 1, 1⟩ "31-02-2024" "Food" "10" "x"
        false = (.invalidDate, demoState) :=
  (spec_C7 demoState ⟨2025, 1, 1⟩ "31-02-2024" "Food" "10" "x" false).1
    (by decide)

/-- C8 (amended): for every valid calendar date whose year has four
digits (1000 ≤ year ≤ 9999), parsing the `DD-MM-YYYY` rendering
written by `save_expense_data` returns the same date; years below
1000 render with fewer than four digits (glibc `%Y` does not zero-pad)
and fail to reparse, so the round trip holds exactly on the
four-digit-year range. -/
theorem spec_C8 (d : DateT) (hv : validDateB d.year d.month d.day = true)
    (hy : 1000 ≤ d.year) :
    parse_date_input (some (strftime_ddmmyyyy d)) = some d := by
  obtain ⟨y, m, day⟩ := d
  exact roundtrip_format_parse y m day hv hy

/-- C8 witness: the round trip at 15 March 2024. -/
theorem spec_C8_witness :
    parse_date_input (some (strftime_ddmmyyyy ⟨2024, 3, 15⟩)) =
      some ⟨2024, 3, 15⟩ :=
  spec_C8 ⟨2024, 3, 15⟩ (by decide) (by decide)

/-- C8 counterexample: 1 January of year 1 is a valid calendar date,
but its canonical rendering is `01-01-1`, which no supported format
reparses, so `parse(format(d)) = d` fails for it. -/
theorem spec_C8_cex :
    validDateB 1 1 1 = true ∧
    strftime_ddmmyyyy ⟨1, 1, 1⟩ = "01-01-1" ∧
    parse_date_input (some (strftime_ddmmyyyy ⟨1, 1, 1⟩)) = none := by
  decide

/-- C9: every canonical-name table reachable by the tracker — built
from a dataset by `build_category_name_mapping` and extended by the
add-path registration — satisfies the stripped/lowercase-key
invariant, and on every such table `normalize_category_name` is
idempotent. -/
theorem spec_C9 :
    (∀ cells, goodMapping (build_category_name_mapping cells)) ∧
    (∀ m c, goodMapping m → goodMapping (registerCategory m c)) ∧
    (∀ m x, goodMapping m →
        normalize_category_name m (normalize_category_name m x) =
          normalize_category_name m x) :=
  ⟨goodMapping_build, goodMapping_register,
    fun m x hg => nameNorm_idem m x hg⟩

/-- C9 witness: idempotence on a table built from a concrete dataset,
at a concrete unseen category. -/
theorem spec_C9_witness :
    normalize_category_name
        (build_category_name_mapping [some "Foo", some "foo"])
        (normalize_category_name
          (build_category_name_mapping [some "Foo", some "foo"])
          (some " bar ")) =
      normalize_category_name
        (build_category_name_mapping [some "Foo", some "foo"])
        (some " bar ") :=
  spec_C9.2.2 _ _ (spec_C9.1 [some "Foo", some "foo"])

/-- C10 (code bug): a truthy (non-empty) `target_month` does make
`filter_expenses` take the month branch exclusively — the `start_date`
and `end_date` arguments are ignored and the call equals the call with
no range bounds — but the result is *not* determined by the
(year, month) match: the month branch constantly returns the bare
`pd.DataFrame()`, because `month_date.to_period('M')` raises
`AttributeError` on the stdlib `datetime` that `parse_date_input`
returns and the blanket `except` swallows it.  At the failing input
`target_month = "2024-03"` on a ledger holding a March-2024 record,
the intended `monthMatch` comparison would keep the record, yet the
call returns the empty frame. -/
theorem spec_C10 :
    (∀ rows (s e : Option String) (m : String), m ≠ "" →
        filter_expenses rows s e (some m) =
          filter_expenses rows none none (some m)) ∧
    (∀ rows (s e : Option String) (m : String), m ≠ "" →
        filter_expenses rows s e (some m) = ⟨[], []⟩) ∧
    parse_date_input (some "2024-03") = some ⟨2024, 3, 1⟩ ∧
    demoLedger.filter (monthMatch ⟨2024, 3, 1⟩) = demoLedger ∧
    filter_expenses demoLedger none none (some "2024-03") = ⟨[], []⟩ := by
  have hconst : ∀ rows (s e : Option String) (m : String), m ≠ "" →
      filter_expenses rows s e (some m) = ⟨[], []⟩ := by
    intro rows s e m h
    have ht : truthyS (some m) = true := by simp [truthyS, h]
    unfold filter_expenses
    rw [if_pos ht]
    cases parse_date_input (some m) <;> rfl
  refine ⟨?_, hconst, by decide,
    by set_option maxRecDepth 4000 in with_unfolding_all decide, ?_⟩
  · intro rows s e m h
    rw [hconst rows s e m h, hconst rows none none m h]
  · exact hconst demoLedger none none "2024-03" (by decide)

/-- C10 witness: at the concrete month `2024-03` with range bounds
supplied, the bounds are ignored and the result is the bare empty
frame despite the ledger holding a matching March-2024 record. -/
theorem spec_C10_witness :
    filter_expenses demoLedger (some "01-01-2024") (some "31-12-2024")
        (some "2024-03") =
      filter_expenses demoLedger none none (some "2024-03") ∧
    filter_expenses demoLedger (some "01-01-2024") (some "31-12-2024")
        (some "2024-03") = ⟨[], []⟩ :=
  ⟨spec_C10.1 demoLedger (some "01-01-2024") (some "31-12-2024") "2024-03"
      (by decide),
    spec_C10.2.1 demoLedger (some "01-01-2024") (some "31-12-2024")
      "2024-03" (by decide)⟩
